import Mathlib

/-!
Verification of the Nertz score-keeping engine (`src/main.rs`) against its
natural-language specification.

Shallow embedding conventions:
* `i8` score values are modelled as unbounded `Int`; the only machine-integer
  cast that the embedded code performs (`first_to as i8`, a `u8`-to-`i8` cast)
  is modelled exactly by `wrap8`.
* Rust code that can panic (vector indexing, `Option::unwrap`, slicing a
  string at a non-boundary byte index, `Vec::remove` out of bounds) is
  embedded as an `Option`-returning function; `none` is a panic.
* The UI layer (`yew` rendering, `NodeRef` bookkeeping, gradient colours,
  browser storage) is external to the spec's core and is not modelled; the
  embedded `step` function is the state transformation of `App::update`.
-/

/-- One score cell (struct `Score`): `val : Option<i8>` and the
`is_editing` focus flag. -/
structure Score where
  val : Option Int
  is_editing : Bool
deriving DecidableEq

/-- The session state (struct `State`).  `players` is the roster
(`type Player = String`), `scores` the round rows stored most-recent-first,
`first_to` the target score (`u8`), the last two fields are cosmetic
parameters used only by the excluded rendering layer. -/
structure State where
  players : List String
  scores : List (List Score)
  is_in_progress : Bool
  first_to : Nat
  negative_size : Nat
  deck_size : Nat
deriving DecidableEq

/-- `State::new()`. -/
def State.new : State :=
  { players := []
    scores := []
    is_in_progress := false
    first_to := 100
    negative_size := 13
    deck_size := 52 }

/-- The `u8`-to-`i8` `as` cast (`self.first_to as i8`), on the mathematical
integers: wrap into `[-128, 127]`. -/
def wrap8 (x : Int) : Int := (x + 128) % 256 - 128

/-- `State::next_round`: build a row of `players.len()` cells with `val = None`,
set `is_editing` on cell `0` (`round[0].is_editing = true`, which panics when
the roster is empty), and insert the row at index `0` of `scores`. -/
def State.next_round (s : State) : Option State :=
  match List.replicate s.players.length { val := none, is_editing := false } with
  | [] => none
  | c :: rest =>
    some { s with scores := ({ c with is_editing := true } :: rest) :: s.scores }

/-- The eager evaluation of `player_sum` at each index of a list (the code's
`players.iter().enumerate().map(|(idx, _)| self.player_sum(idx))` once the
iterator is consumed): `none` as soon as one `player_sum` panics.
`colCells scores idx` collects `round[idx]` over all rounds. -/
def colCells (scores : List (List Score)) (idx : Nat) : Option (List Score) :=
  match scores with
  | [] => some []
  | round :: rest =>
    match round[idx]?, colCells rest idx with
    | some c, some cs => some (c :: cs)
    | _, _ => none

/-- `.sum::<i8>()`: a left fold with eight-bit wrapping addition.  This is
the release-build semantics of the deployed app (a debug build would panic
on overflow instead; either way the mathematical sum is not what the
program computes once a column total leaves `[-128, 127]`). -/
def i8sum (l : List Int) : Int := l.foldl (fun acc v => wrap8 (acc + v)) 0

/-- `State::player_sum`: iterate the rounds, index cell `idx` of each
(panics when a round is too short), keep the `Some` values, and sum them
as `i8` (`i8sum`). -/
def State.player_sum (s : State) (idx : Nat) : Option Int :=
  (colCells s.scores idx).map fun cells => i8sum (cells.filterMap fun sc => sc.val)

/-- Evaluation of `player_sum` at every index in a list, in order. -/
def sumsOf (s : State) : List Nat → Option (List Int)
  | [] => some []
  | i :: rest =>
    match s.player_sum i, sumsOf s rest with
    | some v, some vs => some (v :: vs)
    | _, _ => none

/-- `State::is_game_over`: `false` when some cell is `None`; `false` when the
roster is empty (`scores.len() == 0` on the per-player iterator); otherwise
compute every player's sum, take the maximum (`unwrap`), count the sums equal
to it, and return `any sum >= first_to as i8` and `count == 1`. -/
def State.is_game_over (s : State) : Option Bool :=
  if s.scores.any (fun round => round.any fun score => score.val.isNone) then
    some false
  else if s.players.length = 0 then
    some false
  else
    match sumsOf s (List.range s.players.length) with
    | none => none
    | some sums =>
      match sums.max? with
      | none => none
      | some mx =>
        let h := sums.filter fun score => score = mx
        let game_has_reached_max_score :=
          sums.any fun score => wrap8 (s.first_to : Int) ≤ score
        let no_tie := h.length = 1
        some (game_has_reached_max_score && decide no_tie)

/-- The comparator of `State::get_leader_board`:
`sort_by(|(_, a), (_, b)| b.cmp(a))` keeps `x` before `y` exactly when
`y.2 ≤ x.2` (descending by sum). -/
def lbRel (x y : Nat × Int) : Prop := y.2 ≤ x.2

instance : DecidableRel lbRel := fun x y => inferInstanceAs (Decidable (y.2 ≤ x.2))

instance : IsTotal (Nat × Int) lbRel := ⟨fun x y => le_total y.2 x.2⟩

instance : IsTrans (Nat × Int) lbRel := ⟨fun _ _ _ h h' => le_trans h' h⟩

/-- `State::get_leader_board`: pair every roster index with its `player_sum`,
stable-sort by descending sum, and keep the indices.  `Vec::sort_by` is a
stable sort under the total preorder `lbRel`; it is modelled by insertion
sort, which is extensionally the same function (any two stable sorts under
the same total comparator agree). -/
def State.get_leader_board (s : State) : Option (List Nat) :=
  match sumsOf s (List.range s.players.length) with
  | none => none
  | some sums =>
    let scores := (List.range s.players.length).zip sums
    some ((scores.insertionSort lbRel).map Prod.fst)

/-- `App::get_next_empty`: iterate the rounds in reverse storage order
(`iter_mut().rev()`, so the round at the largest index first) and inside a
round find the first cell with `val = None`; returns the cell's
`(round index, player index)` in storage coordinates. -/
def get_next_empty (scores : List (List Score)) : Option (Nat × Nat) :=
  (List.range scores.length).reverse.findSome? fun i =>
    match scores[i]? with
    | none => none
    | some round =>
      (round.findIdx? fun score => score.val.isNone).map fun j => (i, j)

/-- Write to cell `(r, p)` through `f` (`scores[r][p]`-style indexed access,
panics when either index is out of bounds). -/
def setCell (scores : List (List Score)) (r p : Nat) (f : Score → Score) :
    Option (List (List Score)) :=
  match scores[r]? with
  | none => none
  | some round =>
    match round[p]? with
    | none => none
    | some sc => some (scores.set r (round.set p (f sc)))

/-- The cell at `(r, p)`, when both indices are in bounds. -/
def cellAt (scores : List (List Score)) (r p : Nat) : Option Score :=
  match scores[r]? with
  | none => none
  | some round => round[p]?

/-- The `AppMsg::ScoreEdit` loop: every cell's `is_editing` becomes
`round_idx == round_idx_edit && player_idx == player_idx_edit`. -/
def scoreEditScores (scores : List (List Score)) (re pe : Nat) :
    List (List Score) :=
  scores.enum.map fun rp =>
    rp.2.enum.map fun pc => { pc.2 with is_editing := decide (rp.1 = re ∧ pc.1 = pe) }

/-- The messages of `App::update` (enum `AppMsg`). -/
inductive AppMsg where
  | ScoreEnter (round player : Nat) (score : Int)
  | ScoreEdit (round player : Nat)
  | GameNew
  | GameStart
  | PlayerAdd (name : String)
  | PlayerRemove (idx : Nat)

/-- The state transformation of `App::update` (the `refs`, `leaderboard` and
storage side effects are external).  `ScoreEnter` overwrites the target cell
(indexed assignment, panics out of bounds), then focuses `get_next_empty`
when one exists, otherwise starts a new round unless the game is over.
`PlayerAdd` is an unconditional `Vec::push`; `PlayerRemove` is `Vec::remove`,
which panics out of bounds. -/
def step (s : State) (msg : AppMsg) : Option State :=
  match msg with
  | .ScoreEnter round player score =>
    match setCell s.scores round player (fun _ => { val := some score, is_editing := false }) with
    | none => none
    | some scores1 =>
      let s1 : State := { s with scores := scores1 }
      match get_next_empty s1.scores with
      | some ij =>
        (setCell s1.scores ij.1 ij.2 fun sc => { sc with is_editing := true }).map
          fun scores2 => { s1 with scores := scores2 }
      | none =>
        match s1.is_game_over with
        | none => none
        | some true => some s1
        | some false => s1.next_round
  | .ScoreEdit re pe => some { s with scores := scoreEditScores s.scores re pe }
  | .GameNew => some { State.new with players := s.players }
  | .GameStart => State.next_round { s with is_in_progress := true }
  | .PlayerAdd name => some { s with players := s.players ++ [name] }
  | .PlayerRemove idx =>
    if idx < s.players.length then some { s with players := s.players.eraseIdx idx }
    else none

/-- Run a sequence of messages from a state; `none` as soon as one panics. -/
def run (s : State) : List AppMsg → Option State
  | [] => some s
  | m :: rest =>
    match step s m with
    | none => none
    | some s' => run s' rest

/-- Number of cells of the grid with `is_editing = true`. -/
def editingCount (scores : List (List Score)) : Nat :=
  (scores.map fun round => round.countP fun sc => sc.is_editing).sum

/-- UTF-8 byte length of one character. -/
def utf8Len (c : Char) : Nat :=
  if c.toNat < 0x80 then 1
  else if c.toNat < 0x800 then 2
  else if c.toNat < 0x10000 then 3
  else 4

/-- A name is modelled as its character sequence; `strBytes` is Rust's
`str::len` (UTF-8 byte count). -/
def strBytes (name : List Char) : Nat := (name.map utf8Len).sum

/-- The byte slice `&name[..k]`: `none` (a panic) when `k` exceeds the byte
length or falls strictly inside the bytes of one character (not a char
boundary). -/
def byteSlice (name : List Char) (k : Nat) : Option (List Char) :=
  if k = 0 then some []
  else
    match name with
    | [] => none
    | c :: rest =>
      if utf8Len c ≤ k then (byteSlice rest (k - utf8Len c)).map (c :: ·)
      else none

/-- Per-character model of `str::to_lowercase` (adequate here: the claims
about `find_unique_prefix` concern only whether it panics, and the lowercase
comparison never panics). -/
def lowerL (name : List Char) : List Char := name.map Char.toLower

/-- The inner `for` loop of `find_unique_prefix` over the enumerated roster:
skip index `idx`; slice every other name at `min plen (strBytes name)`
(`none` = slice panic); return `some false` (breaking) at the first
case-insensitive collision with `cur`, `some true` when no other name
collides. -/
def othersUnique (idx plen : Nat) (cur : List Char) :
    List (Nat × List Char) → Option Bool
  | [] => some true
  | other :: rest =>
    if other.1 = idx then othersUnique idx plen cur rest
    else
      match byteSlice other.2 (min plen (strBytes other.2)) with
      | none => none
      | some op =>
        if lowerL cur = lowerL op then some false
        else othersUnique idx plen cur rest

/-- The `while prefix_len <= current_name.len()` loop of
`find_unique_prefix`, starting at prefix byte length `plen`. -/
def uniquePrefixGo (players : List (Nat × List Char)) (idx : Nat)
    (current_name : List Char) (plen : Nat) : Option (List Char) :=
  if h : plen ≤ strBytes current_name then
    match byteSlice current_name plen with
    | none => none
    | some cur =>
      match othersUnique idx plen cur players with
      | none => none
      | some true => some cur
      | some false => uniquePrefixGo players idx current_name (plen + 1)
  else some current_name
termination_by strBytes current_name + 1 - plen
decreasing_by omega

/-- `App::find_unique_prefix` (the spec's `uniquePrefix`): look up the name at
`idx` (`unwrap`, panics out of bounds) and grow the candidate byte length
from 1; at each length compare the byte slice case-insensitively against
every other name's clamped slice; return the first unique slice, falling back
to the full name. -/
def uniquePrefix (players : List (List Char)) (idx : Nat) : Option (List Char) :=
  match players[idx]? with
  | none => none
  | some current_name => uniquePrefixGo players.enum idx current_name 1

/-- The search order written in the spec for `enterScore`: "all cells in
reverse round order (most recent round first)".  Rounds are stored
most-recent-first, so this walks the storage order from index `0` upward,
inside a round in player order. -/
def searchMostRecentFirst (scores : List (List Score)) : Option (Nat × Nat) :=
  match scores with
  | [] => none
  | round :: rest =>
    match round.findIdx? fun score => score.val.isNone with
    | some j => some (0, j)
    | none => (searchMostRecentFirst rest).map fun ij => (ij.1 + 1, ij.2)

/-- The amended search order: oldest round first (the round at the largest
storage index), inside a round in player order. -/
def searchOldestFirst (scores : List (List Score)) : Option (Nat × Nat) :=
  match scores with
  | [] => none
  | round :: rest =>
    match searchOldestFirst rest with
    | some ij => some (ij.1 + 1, ij.2)
    | none => (round.findIdx? fun score => score.val.isNone).map fun j => (0, j)

/-- The game-over rule as the spec words it, applied to the totals the
engine actually computes (`player_sum`, i.e. the `i8`-wrapped column sums):
`false` when some cell is `None`; `false` with zero players; otherwise
`true` iff the highest of those totals reaches `targetScore` and exactly
one player attains it. -/
def is_game_over_spec (s : State) : Option Bool :=
  if s.scores.any (fun round => round.any fun score => score.val.isNone) then
    some false
  else if s.players.length = 0 then
    some false
  else
    match sumsOf s (List.range s.players.length) with
    | none => none
    | some totals =>
      match totals.max? with
      | none => none
      | some mx =>
        some (decide ((s.first_to : Int) ≤ mx) &&
          decide ((totals.filter fun t => t = mx).length = 1))

/-- The values present in column `i`: the spec's "non-`None` values in
column `i` across all rounds". -/
def columnValues (scores : List (List Score)) (i : Nat) : List Int :=
  scores.filterMap fun round => (round[i]?).bind fun sc => sc.val

/-- The game-over rule as the spec words it, applied to the spec's own
`playerTotal` — the exact mathematical sum of the non-`None` values of the
player's column, with no eight-bit wrap. -/
def is_game_over_ideal (s : State) : Option Bool :=
  if s.scores.any (fun round => round.any fun score => score.val.isNone) then
    some false
  else if s.players.length = 0 then
    some false
  else
    let totals := (List.range s.players.length).map fun i =>
      (columnValues s.scores i).sum
    match totals.max? with
    | none => none
    | some mx =>
      some (decide ((s.first_to : Int) ≤ mx) &&
        decide ((totals.filter fun t => t = mx).length = 1))


/-- Grid well-formedness: every round has one cell per player. -/
def WFGrid (s : State) : Prop :=
  ∀ round ∈ s.scores, round.length = s.players.length

/-! ## Simple operation claims -/

/-- C5 counterexample: `addPlayer` with the empty name is not a no-op
(`AppMsg::PlayerAdd` is an unconditional `Vec::push`): from the fresh
session it yields the roster `[""]`, not the unchanged state. -/
theorem C5_counterexample :
    step State.new (AppMsg.PlayerAdd "") ≠ some State.new ∧
    (step State.new (AppMsg.PlayerAdd "")).map State.players = some [""] := by
  constructor
  · intro h
    simp [step, State.new] at h
  · rfl

/-- C5 (amended): `addPlayer(name)` appends a player at the next roster
position unconditionally, for the empty name as well; no state other than
the roster changes. -/
theorem C5_addPlayer_appends (s : State) (name : String) :
    step s (AppMsg.PlayerAdd name) = some { s with players := s.players ++ [name] } :=
  rfl

/-- C6 counterexample: `removePlayer` with an out-of-bounds index is not a
silent no-op: `Vec::remove` panics (modelled as `none`) on the fresh,
empty roster. -/
theorem C6_counterexample :
    step State.new (AppMsg.PlayerRemove 0) = none ∧
    step State.new (AppMsg.PlayerRemove 0) ≠ some State.new := by
  constructor
  · rfl
  · intro h
    simp [step, State.new] at h

/-- C6 (amended): `removePlayer(index)` with an in-bounds index removes
exactly the player at that index, shifting subsequent indices down by one
and leaving the rest of the state unchanged; with an out-of-bounds index it
panics (`Vec::remove`), it is not a no-op. -/
theorem C6_removePlayer (s : State) (idx : Nat) :
    (idx < s.players.length →
      step s (AppMsg.PlayerRemove idx) =
        some { s with players := s.players.take idx ++ s.players.drop (idx + 1) }) ∧
    (s.players.length ≤ idx → step s (AppMsg.PlayerRemove idx) = none) := by
  constructor
  · intro h
    simp [step, h, List.eraseIdx_eq_take_drop_succ]
  · intro h
    simp [step, Nat.not_lt.mpr h]

/-- C6 witness: both branches of `C6_removePlayer` at a concrete roster. -/
theorem C6_witness :
    step { State.new with players := ["a", "b"] } (AppMsg.PlayerRemove 0) =
      some { { State.new with players := ["a", "b"] } with
        players :=
          (["a", "b"] : List String).take 0 ++ (["a", "b"] : List String).drop 1 } ∧
    step State.new (AppMsg.PlayerRemove 3) = none :=
  ⟨(C6_removePlayer { State.new with players := ["a", "b"] } 0).1 (by decide),
   (C6_removePlayer State.new 3).2 (by decide)⟩

/-- C7 counterexample: `startGame()` with an empty roster fails:
`State::next_round` does `round[0].is_editing = true` on a zero-length row,
which panics (modelled as `none`). -/
theorem C7_counterexample : step State.new AppMsg.GameStart = none :=
  rfl

/-- C7 (amended): `startGame()` tolerates a roster of 1 player (and any
non-empty roster): it sets `started`, prepends a degenerate round with one
`value = None` cell per player, and focuses the first cell.  With 0 players
it panics instead of creating an empty degenerate round. -/
theorem C7_startGame (s : State) (h : 0 < s.players.length) :
    step s AppMsg.GameStart = some
      { s with
        is_in_progress := true
        scores :=
          ({ val := none, is_editing := true } ::
            List.replicate (s.players.length - 1) { val := none, is_editing := false }) ::
          s.scores } := by
  obtain ⟨k, hk⟩ := Nat.exists_eq_add_of_lt h
  simp only [step, State.next_round]
  rw [show ({ s with is_in_progress := true } : State).players.length = k + 1 by
    simpa using by omega]
  simp [List.replicate_succ, hk]

/-- C7 witness: `startGame` on a one-player roster. -/
theorem C7_witness :
    step { State.new with players := ["a"] } AppMsg.GameStart = some
      { { State.new with players := ["a"] } with
        is_in_progress := true
        scores :=
          ({ val := none, is_editing := true } ::
            List.replicate 0 { val := none, is_editing := false }) :: [] } :=
  C7_startGame { State.new with players := ["a"] } (by decide)

/-- C9: `newGame()` from any in-progress state resets all round and score
state to the fresh defaults (`State::new`) and returns to Setup, while
preserving the roster exactly. -/
theorem C9_newGame (s : State) (h : s.is_in_progress = true) :
    step s AppMsg.GameNew = some
      { players := s.players
        scores := []
        is_in_progress := false
        first_to := 100
        negative_size := 13
        deck_size := 52 } :=
  rfl

/-- C9 witness: `newGame` at a concrete in-progress state. -/
theorem C9_witness :
    step { State.new with players := ["a"], is_in_progress := true }
      AppMsg.GameNew = some
      { players := ["a"]
        scores := []
        is_in_progress := false
        first_to := 100
        negative_size := 13
        deck_size := 52 } :=
  C9_newGame { State.new with players := ["a"], is_in_progress := true } rfl

/-! ## C8: player totals -/

lemma colCells_eq_of_lt (scores : List (List Score)) (i : Nat)
    (h : ∀ round ∈ scores, i < round.length) :
    ∃ cells, colCells scores i = some cells ∧
      cells.filterMap (fun sc => sc.val) = columnValues scores i := by
  induction scores with
  | nil => exact ⟨[], rfl, rfl⟩
  | cons round rest ih =>
    obtain ⟨cells, hc, hv⟩ := ih fun r hr => h r (List.mem_cons_of_mem _ hr)
    have hlen : i < round.length := h round (List.mem_cons_self _ _)
    have hget : round[i]? = some (round.get ⟨i, hlen⟩) := by
      rw [List.get_eq_getElem]
      exact List.getElem?_eq_getElem hlen
    refine ⟨round.get ⟨i, hlen⟩ :: cells, ?_, ?_⟩
    · simp [colCells, hget, hc]
    · simp only [columnValues, List.filterMap_cons, hget, Option.some_bind]
      cases hval : (round.get ⟨i, hlen⟩).val <;>
        simp_all [columnValues]

lemma newRoundCell (k i : Nat) (hi : i < k + 1) :
    ∃ c : Score,
      (({ val := none, is_editing := true } : Score) ::
        List.replicate k ({ val := none, is_editing := false } : Score))[i]? = some c ∧
      c.val = none := by
  cases i with
  | zero => exact ⟨{ val := none, is_editing := true }, by simp, rfl⟩
  | succ j =>
    refine ⟨{ val := none, is_editing := false }, ?_, rfl⟩
    have hj : j < k := by omega
    simp [List.getElem?_replicate, hj]

lemma wrap8_add_left (a b : Int) : wrap8 (wrap8 a + b) = wrap8 (a + b) := by
  unfold wrap8
  omega

lemma i8sum_foldl (l : List Int) : ∀ acc : Int,
    l.foldl (fun acc v => wrap8 (acc + v)) (wrap8 acc) = wrap8 (acc + l.sum) := by
  induction l with
  | nil => intro acc; simp
  | cons v rest ih =>
    intro acc
    rw [List.foldl_cons, wrap8_add_left acc v, ih (acc + v), List.sum_cons]
    congr 1
    ring

/-- The `i8` fold of a column is the eight-bit wrap of its mathematical sum. -/
lemma i8sum_eq_wrap8_sum (l : List Int) : i8sum l = wrap8 l.sum := by
  have h := i8sum_foldl l 0
  rw [show wrap8 (0 : Int) = 0 by unfold wrap8; decide] at h
  unfold i8sum
  simpa using h

/-- A reachable overflow session: two completed rounds, column `0` holding
`90 + 90` (true total `180`, but `player_sum` computes the wrapped `i8`
value `-76`), column `1` holding `0 + 90` (total `90`, unwrapped). -/
def exOverflow : State :=
  { State.new with
    players := ["a", "b"]
    is_in_progress := true
    scores :=
      [[{ val := some 90, is_editing := false }, { val := some 0, is_editing := false }],
       [{ val := some 90, is_editing := false }, { val := some 90, is_editing := false }]] }

/-- C8 counterexample: `playerTotal(0)` of `exOverflow` is the wrapped
`i8` value `-76`, not the mathematical column sum `180`: `.sum::<i8>()`
wraps past `127` (release; a debug build panics there instead). -/
theorem C8_counterexample :
    exOverflow.player_sum 0 = some (-76) ∧
    (columnValues exOverflow.scores 0).sum = 180 ∧
    exOverflow.player_sum 0 ≠ some ((columnValues exOverflow.scores 0).sum) :=
  ⟨by decide, by decide, by decide⟩

/-- C8 (amended): `playerTotal(i)` is the eight-bit wrap (`wrap8`) of the
sum of the non-`None` values in column `i` across all rounds — the exact
mathematical sum only while that sum stays in `[-128, 127]` — and appending
a new all-`None` round (`State::next_round`) leaves every `playerTotal`
unchanged. -/
theorem C8_player_totals (s s' : State) (i : Nat) (hwf : WFGrid s)
    (hi : i < s.players.length) (hnr : s.next_round = some s') :
    s.player_sum i = some (wrap8 (columnValues s.scores i).sum) ∧
    s'.player_sum i = s.player_sum i := by
  constructor
  · obtain ⟨cells, hc, hv⟩ := colCells_eq_of_lt s.scores i fun r hr => (hwf r hr) ▸ hi
    simp [State.player_sum, hc, hv, i8sum_eq_wrap8_sum]
  · have hk' : s.players.length = (s.players.length - 1) + 1 := by omega
    rw [State.next_round] at hnr
    rw [hk'] at hnr
    simp only [List.replicate_succ] at hnr
    obtain ⟨c, hc, hcv⟩ := newRoundCell (s.players.length - 1) i (by omega)
    cases hnr
    simp only [State.player_sum, colCells, hc]
    cases hrest : colCells s.scores i with
    | none => rfl
    | some cs => simp [List.filterMap_cons, hcv]

/-- A concrete two-player, two-round session used by witnesses
(the spec's Scenario A). -/
def exState : State :=
  { State.new with
    players := ["Ann", "Bob"]
    is_in_progress := true
    scores :=
      [[{ val := some 25, is_editing := false }, { val := some (-5), is_editing := false }],
       [{ val := some 20, is_editing := false }, { val := some 30, is_editing := false }]] }

/-- `exState` after `State::next_round`. -/
def exStateNext : State :=
  { exState with
    scores :=
      ({ val := none, is_editing := true } :: [{ val := none, is_editing := false }]) ::
        exState.scores }

/-- C8 witness: the totals of `exState`, before and after a new round. -/
theorem C8_witness :
    exState.player_sum 0 = some (wrap8 (columnValues exState.scores 0).sum) ∧
    exStateNext.player_sum 0 = exState.player_sum 0 :=
  C8_player_totals exState exStateNext 0 (by unfold WFGrid; decide) (by decide)
    (by decide)

/-! ## C2: game-over rule -/

lemma int_max?_spec (sums : List Int) (mx : Int) (hmx : sums.max? = some mx) :
    mx ∈ sums ∧ ∀ b ∈ sums, b ≤ mx := by
  haveI : Std.Antisymm (fun x1 x2 : Int => x1 ≤ x2) := ⟨@fun _ _ h h' => le_antisymm h h'⟩
  rw [List.max?_eq_some_iff (fun a => le_refl a) max_choice (fun _ _ _ => max_le_iff)] at hmx
  exact hmx

lemma any_ge_max (sums : List Int) (mx t : Int) (hmx : sums.max? = some mx) :
    (sums.any fun score => decide (t ≤ score)) = decide (t ≤ mx) := by
  obtain ⟨hmem, hub⟩ := int_max?_spec sums mx hmx
  by_cases h : t ≤ mx
  · have hany : sums.any (fun score => decide (t ≤ score)) = true :=
      List.any_eq_true.mpr ⟨mx, hmem, by simpa using h⟩
    simp [hany, h]
  · have hany : sums.any (fun score => decide (t ≤ score)) = false := by
      simp only [List.any_eq_false, decide_eq_true_eq]
      intro x hx hle
      exact h (le_trans hle (hub x hx))
    simp [hany, h]

lemma wrap8_small (t : Nat) (ht : t < 128) : wrap8 (t : Int) = (t : Int) := by
  unfold wrap8
  have h1 : (0 : Int) ≤ (t : Int) + 128 := by positivity
  have h2 : (t : Int) + 128 < 256 := by
    have : (t : Int) < 128 := by exact_mod_cast ht
    omega
  rw [Int.emod_eq_of_lt h1 h2]
  ring

/-- C2 counterexample: at `exOverflow` every cell is filled and the true
totals are `180` and `90` — a unique maximum at or above the target `100`,
so the claim's rule says the game is over — but the program computes the
wrapped `i8` totals `-76` and `90` and returns `false`. -/
theorem C2_counterexample :
    exOverflow.is_game_over = some false ∧
    is_game_over_ideal exOverflow = some true :=
  ⟨by decide, by decide⟩

/-- C2 (amended): with the program target-score range (`first_to` is `100`,
always below `128`, so the `u8`-to-`i8` cast is the identity),
`is_game_over` computes the rule of the spec applied to the totals the
engine computes — the `i8`-wrapped column sums, not the exact mathematical
sums: `false` when some cell is `None`, `false` with zero players,
otherwise `true` iff the highest wrapped total reaches `targetScore` and
exactly one player attains it. -/
theorem C2_is_game_over (s : State) (ht : s.first_to < 128) :
    s.is_game_over = is_game_over_spec s := by
  unfold State.is_game_over is_game_over_spec
  split_ifs with h1 h2
  · rfl
  · rfl
  · cases hs : sumsOf s (List.range s.players.length) with
    | none => rfl
    | some sums =>
      dsimp only
      cases hm : sums.max? with
      | none => rfl
      | some mx =>
        dsimp only
        rw [wrap8_small s.first_to ht, any_ge_max sums mx _ hm]

/-- C2 witness: the two-player Scenario A state is not game over (cells all
filled, max total 45 below 100; the spec rule agrees). -/
theorem C2_witness :
    exState.is_game_over = is_game_over_spec exState :=
  C2_is_game_over exState (by decide)

/-! ## C10: unique name disambiguation and UTF-8 boundaries -/

lemma byteSlice_ascii_isSome (name : List Char) (k : Nat)
    (ha : ∀ c ∈ name, utf8Len c = 1) (hk : k ≤ strBytes name) :
    (byteSlice name k).isSome := by
  induction name generalizing k with
  | nil =>
    have hk0 : k = 0 := by simpa [strBytes] using hk
    simp [byteSlice, hk0]
  | cons c rest ih =>
    by_cases h0 : k = 0
    · simp [byteSlice, h0]
    · have hc : utf8Len c = 1 := ha c (List.mem_cons_self _ _)
      have hle : utf8Len c ≤ k := by omega
      have hrest : k - utf8Len c ≤ strBytes rest := by
        have : strBytes (c :: rest) = utf8Len c + strBytes rest := by
          simp [strBytes]
        omega
      have := ih (fun x hx => ha x (List.mem_cons_of_mem _ hx)) (k := k - utf8Len c) hrest
      rw [byteSlice]
      simp [h0, hle, Option.isSome_map, this]

lemma othersUnique_ascii_isSome (idx plen : Nat) (cur : List Char)
    (others : List (Nat × List Char))
    (ha : ∀ p ∈ others, ∀ c ∈ p.2, utf8Len c = 1) :
    (othersUnique idx plen cur others).isSome := by
  induction others with
  | nil => simp [othersUnique]
  | cons other rest ih =>
    have ihr := ih fun p hp => ha p (List.mem_cons_of_mem _ hp)
    rw [othersUnique]
    by_cases he : other.1 = idx
    · simpa [he] using ihr
    · have hs := byteSlice_ascii_isSome other.2 (min plen (strBytes other.2))
        (ha other (List.mem_cons_self _ _)) (Nat.min_le_right _ _)
      obtain ⟨op, hop⟩ := Option.isSome_iff_exists.mp hs
      rw [hop]
      by_cases hcmp : lowerL cur = lowerL op <;> simp [he, hcmp, ihr]

lemma uniquePrefixGo_ascii_isSome (players : List (Nat × List Char)) (idx : Nat)
    (name : List Char) (ha : ∀ p ∈ players, ∀ c ∈ p.2, utf8Len c = 1)
    (han : ∀ c ∈ name, utf8Len c = 1) :
    ∀ plen, (uniquePrefixGo players idx name plen).isSome := by
  have H : ∀ m plen, strBytes name + 1 - plen ≤ m →
      (uniquePrefixGo players idx name plen).isSome := by
    intro m
    induction m with
    | zero =>
      intro plen h
      have hgt : ¬ plen ≤ strBytes name := by omega
      rw [uniquePrefixGo]
      simp [hgt]
    | succ m ih =>
      intro plen h
      rw [uniquePrefixGo]
      by_cases hp : plen ≤ strBytes name
      · obtain ⟨cur, hcur⟩ :=
          Option.isSome_iff_exists.mp (byteSlice_ascii_isSome name plen han hp)
        obtain ⟨b, hb⟩ :=
          Option.isSome_iff_exists.mp (othersUnique_ascii_isSome idx plen cur players ha)
        cases b with
        | true => simp [hp, hcur, hb]
        | false =>
          have := ih (plen + 1) (by omega)
          simp [hp, hcur, hb, this]
      · simp [hp]
  exact fun plen => H (strBytes name + 1 - plen) plen (le_refl _)

/-- C10: `find_unique_prefix` is total on all-ASCII rosters (every byte
index is then a character boundary, so no slice panics), but a roster with
a multi-byte character can make it slice inside a character and panic: with
the single name `"é"` the very first slice `&name[..1]` falls inside the
two-byte character and fails. -/
theorem C10_uniquePrefix_ascii :
    (∀ (players : List (List Char)) (idx : Nat),
      (∀ name ∈ players, ∀ c ∈ name, utf8Len c = 1) →
      idx < players.length →
      (uniquePrefix players idx).isSome = true) ∧
    uniquePrefix [['é']] 0 = none := by
  constructor
  · intro players idx ha hidx
    unfold uniquePrefix
    rw [List.getElem?_eq_getElem hidx]
    apply uniquePrefixGo_ascii_isSome
    · intro p hp
      have hmem : p.2 ∈ players := by
        rcases p with ⟨i, nm⟩
        have := List.mem_enum_iff_getElem?.mp hp
        exact List.getElem?_mem this
      exact ha p.2 hmem
    · exact ha _ (List.getElem_mem hidx)
  · rw [uniquePrefix]
    simp only [List.getElem?_cons_zero]
    rw [uniquePrefixGo]
    simp [byteSlice, utf8Len, strBytes, show ('é'.toNat : Nat) = 233 from rfl]

/-- C10 witness: a concrete ASCII roster where `find_unique_prefix` returns
a prefix without failing. -/
theorem C10_witness : (uniquePrefix [['a'], ['b']] 0).isSome = true :=
  C10_uniquePrefix_ascii.1 [['a'], ['b']] 0 (by decide) (by decide)

/-! ## C4: the leaderboard -/

lemma sumsOf_length (s : State) (l : List Nat) (vs : List Int)
    (h : sumsOf s l = some vs) : vs.length = l.length := by
  induction l generalizing vs with
  | nil => simp [sumsOf] at h; simp [← h]
  | cons i rest ih =>
    rw [sumsOf] at h
    cases hv : s.player_sum i with
    | none => rw [hv] at h; simp at h
    | some v =>
      rw [hv] at h
      cases hr : sumsOf s rest with
      | none => rw [hr] at h; simp at h
      | some vs' =>
        rw [hr] at h
        simp only [Option.some.injEq] at h
        subst h
        simp [ih vs' hr]

lemma sumsOf_zip_mem (s : State) (l : List Nat) (vs : List Int)
    (h : sumsOf s l = some vs) : ∀ p ∈ l.zip vs, s.player_sum p.1 = some p.2 := by
  induction l generalizing vs with
  | nil => simp
  | cons i rest ih =>
    rw [sumsOf] at h
    cases hv : s.player_sum i with
    | none => rw [hv] at h; simp at h
    | some v =>
      rw [hv] at h
      cases hr : sumsOf s rest with
      | none => rw [hr] at h; simp at h
      | some vs' =>
        rw [hr] at h
        simp only [Option.some.injEq] at h
        subst h
        intro p hp
        rcases List.mem_cons.mp hp with hp | hp
        · subst hp; exact hv
        · exact ih vs' hr p hp

lemma pair_getElem?_sublist {α : Type} (l : List α) :
    ∀ {i j : Nat} {a b : α}, i < j → l[i]? = some a → l[j]? = some b →
      [a, b].Sublist l := by
  induction l with
  | nil => intro i j a b _ ha _; simp at ha
  | cons x rest ih =>
    intro i j a b hij ha hb
    cases i with
    | zero =>
      simp only [List.getElem?_cons_zero, Option.some.injEq] at ha
      subst ha
      obtain ⟨j', rfl⟩ : ∃ j', j = j' + 1 := ⟨j - 1, by omega⟩
      rw [List.getElem?_cons_succ] at hb
      exact List.cons_sublist_cons.mpr (List.singleton_sublist.mpr (List.getElem?_mem hb))
    | succ i' =>
      obtain ⟨j', rfl⟩ : ∃ j', j = j' + 1 := ⟨j - 1, by omega⟩
      rw [List.getElem?_cons_succ] at ha hb
      exact (ih (by omega) ha hb).cons x

lemma sublist_pair_exists_getElem? {α : Type} {a b : α} :
    ∀ (l : List α), [a, b].Sublist l →
      ∃ i j : Nat, i < j ∧ l[i]? = some a ∧ l[j]? = some b := by
  intro l
  induction l with
  | nil => intro h; simp at h
  | cons x rest ih =>
    intro h
    cases h with
    | cons _ h' =>
      obtain ⟨i, j, hij, ha, hb⟩ := ih h'
      exact ⟨i + 1, j + 1, by omega, by simpa, by simpa⟩
    | cons₂ _ h' =>
      have hbmem : b ∈ rest := List.singleton_sublist.mp h'
      obtain ⟨j, hj⟩ := List.getElem?_of_mem hbmem
      exact ⟨0, j + 1, by omega, by simp, by simpa⟩

lemma pair_sublist_lt_of_nodup {α : Type} {lb : List α} (hnd : lb.Nodup) {a b : α}
    (hs : [a, b].Sublist lb) {ia ib : Nat}
    (ha : lb[ia]? = some a) (hb : lb[ib]? = some b) : ia < ib := by
  obtain ⟨i, j, hij, hia, hjb⟩ := sublist_pair_exists_getElem? lb hs
  obtain ⟨hlt1, he1⟩ := List.getElem?_eq_some_iff.mp ha
  obtain ⟨hlt2, he2⟩ := List.getElem?_eq_some_iff.mp hia
  obtain ⟨hlt3, he3⟩ := List.getElem?_eq_some_iff.mp hb
  obtain ⟨hlt4, he4⟩ := List.getElem?_eq_some_iff.mp hjb
  have h1 : ia = i := (List.Nodup.getElem_inj_iff hnd).mp (he1.trans he2.symm)
  have h2 : ib = j := (List.Nodup.getElem_inj_iff hnd).mp (he3.trans he4.symm)
  omega

/-- C4 counterexample: the leaderboard of `exOverflow` is `[1, 0]` — the
program sorts by the wrapped `i8` totals `(-76, 90)` — although player `0`'s
spec `playerTotal` (`180`) exceeds player `1`'s (`90`), so the entries are
not in weakly decreasing order of the spec's `playerTotal`. -/
theorem C4_counterexample :
    exOverflow.get_leader_board = some [1, 0] ∧
    (columnValues exOverflow.scores 1).sum < (columnValues exOverflow.scores 0).sum :=
  ⟨by decide, by decide⟩

/-- C4 (amended): the leaderboard is a permutation of the roster positions
`[0..players.length)`, any two entries in leaderboard order have weakly
decreasing totals **as the engine computes them** (`player_sum`, the
`i8`-wrapped column sums — not the exact mathematical sums, which the sort
can violate on overflow), and the sort is stable: for equal wrapped totals,
a player precedes another exactly when its roster position is smaller. -/
theorem C4_leaderboard (s : State) (lb : List Nat)
    (hlb : s.get_leader_board = some lb) :
    lb.Perm (List.range s.players.length) ∧
    lb.Pairwise (fun a b => ∀ x y,
      s.player_sum a = some x → s.player_sum b = some y → y ≤ x) ∧
    (∀ ia ib a b : Nat, lb[ia]? = some a → lb[ib]? = some b →
      s.player_sum a = s.player_sum b → (ia < ib ↔ a < b)) := by
  rw [State.get_leader_board] at hlb
  cases hsum : sumsOf s (List.range s.players.length) with
  | none => rw [hsum] at hlb; simp at hlb
  | some sums =>
    rw [hsum] at hlb
    simp only [Option.some.injEq] at hlb
    subst hlb
    set n := s.players.length with hn
    set pairs := (List.range n).zip sums with hpairs
    have hlen : sums.length = n := by
      simpa using sumsOf_length s (List.range n) sums hsum
    have hmem : ∀ p ∈ pairs, s.player_sum p.1 = some p.2 :=
      sumsOf_zip_mem s (List.range n) sums hsum
    have hperm_pairs : (pairs.insertionSort lbRel).Perm pairs :=
      List.perm_insertionSort lbRel pairs
    have hmap_fst : pairs.map Prod.fst = List.range n :=
      List.map_fst_zip _ _ (by simp [hlen])
    have hperm :
        ((pairs.insertionSort lbRel).map Prod.fst).Perm (List.range n) := by
      rw [← hmap_fst]
      exact hperm_pairs.map Prod.fst
    have hsorted := List.sorted_insertionSort lbRel pairs
    have hmem_sorted : ∀ p ∈ pairs.insertionSort lbRel, s.player_sum p.1 = some p.2 :=
      fun p hp => hmem p (hperm_pairs.mem_iff.mp hp)
    refine ⟨hperm, ?_, ?_⟩
    · rw [List.pairwise_map]
      refine List.Pairwise.imp_of_mem ?_ hsorted
      intro p q hp hq hrel x y hx hy
      have hxp : x = p.2 := by
        have h' := hmem_sorted p hp
        rw [hx] at h'
        exact (Option.some.injEq _ _).mp h'
      have hyq : y = q.2 := by
        have h' := hmem_sorted q hq
        rw [hy] at h'
        exact (Option.some.injEq _ _).mp h'
      subst hxp hyq
      exact hrel
    · have hnd : ((pairs.insertionSort lbRel).map Prod.fst).Nodup :=
        hperm.nodup_iff.mpr (List.nodup_range n)
      intro ia ib a b ha hb heq
      have haN : a < n := List.mem_range.mp (hperm.subset (List.getElem?_mem ha))
      have hbN : b < n := List.mem_range.mp (hperm.subset (List.getElem?_mem hb))
      have haS : a < sums.length := by rw [hlen]; exact haN
      have hbS : b < sums.length := by rw [hlen]; exact hbN
      have hpa : pairs[a]? = some (a, sums.get ⟨a, haS⟩) :=
        List.getElem?_zip_eq_some.mpr ⟨List.getElem?_range haN, by
          rw [List.get_eq_getElem]
          exact List.getElem?_eq_getElem haS⟩
      have hpb : pairs[b]? = some (b, sums.get ⟨b, hbS⟩) :=
        List.getElem?_zip_eq_some.mpr ⟨List.getElem?_range hbN, by
          rw [List.get_eq_getElem]
          exact List.getElem?_eq_getElem hbS⟩
      have hva : s.player_sum a = some (sums.get ⟨a, haS⟩) := hmem _ (List.getElem?_mem hpa)
      have hvb : s.player_sum b = some (sums.get ⟨b, hbS⟩) := hmem _ (List.getElem?_mem hpb)
      have hvv : sums.get ⟨a, haS⟩ = sums.get ⟨b, hbS⟩ := by
        rw [hva, hvb] at heq
        exact (Option.some.injEq _ _).mp heq
      have key : ∀ (u v : Nat) (hu : u < sums.length) (hv : v < sums.length),
          u < v → sums.get ⟨u, hu⟩ = sums.get ⟨v, hv⟩ →
            [u, v].Sublist ((pairs.insertionSort lbRel).map Prod.fst) := by
        intro u v hu hv huv hsv
        have hpu : pairs[u]? = some (u, sums.get ⟨u, hu⟩) :=
          List.getElem?_zip_eq_some.mpr
            ⟨List.getElem?_range (by rw [← hlen]; exact hu), by
              rw [List.get_eq_getElem]
              exact List.getElem?_eq_getElem hu⟩
        have hpv : pairs[v]? = some (v, sums.get ⟨v, hv⟩) :=
          List.getElem?_zip_eq_some.mpr
            ⟨List.getElem?_range (by rw [← hlen]; exact hv), by
              rw [List.get_eq_getElem]
              exact List.getElem?_eq_getElem hv⟩
        have hsub : [(u, sums.get ⟨u, hu⟩), (v, sums.get ⟨v, hv⟩)].Sublist pairs :=
          pair_getElem?_sublist pairs huv hpu hpv
        have hpw : [(u, sums.get ⟨u, hu⟩), (v, sums.get ⟨v, hv⟩)].Pairwise lbRel := by
          have hsv' := hsv
          rw [List.get_eq_getElem, List.get_eq_getElem] at hsv'
          simp [List.pairwise_cons, lbRel, hsv', le_refl]
        have hsl := (List.sublist_insertionSort hpw hsub).map Prod.fst
        simpa using hsl
      constructor
      · intro hab_idx
        by_contra hnab
        rcases Nat.lt_or_ge b a with hba | hge
        · have hs := key b a hbS haS hba hvv.symm
          have := pair_sublist_lt_of_nodup hnd hs hb ha
          omega
        · have hab : a = b := by omega
          subst hab
          obtain ⟨l1, e1⟩ := List.getElem?_eq_some_iff.mp ha
          obtain ⟨l2, e2⟩ := List.getElem?_eq_some_iff.mp hb
          have : ia = ib := (List.Nodup.getElem_inj_iff hnd).mp (e1.trans e2.symm)
          omega
      · intro hab
        exact pair_sublist_lt_of_nodup hnd (key a b haS hbS hab hvv) ha hb

/-- C4 witness: the leaderboard of the Scenario A state. -/
theorem C4_witness :
    ([0, 1] : List Nat).Perm (List.range exState.players.length) ∧
    ([0, 1] : List Nat).Pairwise (fun a b => ∀ x y,
      exState.player_sum a = some x → exState.player_sum b = some y → y ≤ x) ∧
    (∀ ia ib a b : Nat, ([0, 1] : List Nat)[ia]? = some a →
      ([0, 1] : List Nat)[ib]? = some b →
      exState.player_sum a = exState.player_sum b → (ia < ib ↔ a < b)) :=
  C4_leaderboard exState [0, 1] (by decide)

/-! ## C1: the cursor search order -/

lemma findSome?_comp_map {α β γ : Type} (f : α → Option β) (g : β → γ) :
    ∀ l : List α, (l.findSome? fun a => (f a).map g) = (l.findSome? f).map g := by
  intro l
  induction l with
  | nil => simp
  | cons a rest ih =>
    rw [List.findSome?_cons, List.findSome?_cons]
    cases hf : f a <;> simp [hf, ih]

lemma findIdx?_some_spec {α : Type} (p : α → Bool) (l : List α) (j : Nat)
    (h : l.findIdx? p = some j) : ∃ x, l[j]? = some x ∧ p x = true := by
  obtain ⟨hlt, hidx⟩ := List.findIdx?_eq_some_iff_findIdx_eq.mp h
  refine ⟨l.get ⟨j, hlt⟩, ?_, ?_⟩
  · rw [List.get_eq_getElem]
    exact List.getElem?_eq_getElem hlt
  · rw [List.get_eq_getElem]
    subst hidx
    exact List.findIdx_getElem

lemma get_next_empty_cons (round : List Score) (rest : List (List Score)) :
    get_next_empty (round :: rest) =
      match get_next_empty rest with
      | some ij => some (ij.1 + 1, ij.2)
      | none => (round.findIdx? fun score => score.val.isNone).map fun j => (0, j) := by
  rw [get_next_empty]
  have hlen : (round :: rest).length = rest.length + 1 := rfl
  rw [hlen, List.range_succ_eq_map, List.reverse_cons, ← List.map_reverse,
    List.findSome?_append]
  have hmap :
      (List.findSome? (fun i =>
        match (round :: rest)[i]? with
        | none => none
        | some r => (r.findIdx? fun score => score.val.isNone).map fun j => (i, j))
        ((List.range rest.length).reverse.map Nat.succ)) =
      (get_next_empty rest).map fun ij => (ij.1 + 1, ij.2) := by
    rw [List.findSome?_map, get_next_empty]
    rw [show ((fun i =>
        match (round :: rest)[i]? with
        | none => none
        | some r => (r.findIdx? fun score => score.val.isNone).map fun j => (i, j))
          ∘ Nat.succ) =
        fun i => ((match rest[i]? with
          | none => none
          | some r => (r.findIdx? fun score => score.val.isNone).map fun j => (i, j) :
            Option (Nat × Nat)).map fun ij => (ij.1 + 1, ij.2)) from ?_]
    · exact findSome?_comp_map _ _ _
    · funext i
      simp only [Function.comp_apply, List.getElem?_cons_succ]
      cases rest[i]? with
      | none => rfl
      | some r =>
        dsimp only
        cases r.findIdx? fun score => score.val.isNone <;> rfl
  rw [hmap]
  cases hr : get_next_empty rest with
  | some ij => rfl
  | none =>
    simp only [Option.map_none, Option.none_or]
    rw [List.findSome?_cons]
    simp only [List.getElem?_cons_zero]
    cases round.findIdx? fun score => score.val.isNone <;> rfl

lemma get_next_empty_eq_oldest : ∀ scores : List (List Score),
    get_next_empty scores = searchOldestFirst scores := by
  intro scores
  induction scores with
  | nil => rfl
  | cons round rest ih =>
    rw [get_next_empty_cons, searchOldestFirst, ih]

lemma searchOldestFirst_isSome (scores : List (List Score))
    (h : ∃ round ∈ scores, ∃ c ∈ round, c.val = none) :
    (searchOldestFirst scores).isSome = true := by
  induction scores with
  | nil => simp at h
  | cons round rest ih =>
    rw [searchOldestFirst]
    cases hr : searchOldestFirst rest with
    | some ij => rfl
    | none =>
      obtain ⟨r, hrm, c, hcm, hcv⟩ := h
      rcases List.mem_cons.mp hrm with rfl | hrm'
      · have : r.findIdx? (fun score => score.val.isNone) ≠ none := by
          intro hnone
          have := List.findIdx?_eq_none_iff.mp hnone c hcm
          simp [hcv] at this
        cases hf : r.findIdx? fun score => score.val.isNone with
        | none => exact absurd hf this
        | some j => simp
      · have : (searchOldestFirst rest).isSome = true := ih ⟨r, hrm', c, hcm, hcv⟩
        rw [hr] at this
        simp at this

lemma searchOldestFirst_spec :
    ∀ (scores : List (List Score)) (i j : Nat),
      searchOldestFirst scores = some (i, j) →
      ∃ round c, scores[i]? = some round ∧ round[j]? = some c ∧ c.val = none := by
  intro scores
  induction scores with
  | nil => intro i j h; simp [searchOldestFirst] at h
  | cons round rest ih =>
    intro i j h
    rw [searchOldestFirst] at h
    cases hr : searchOldestFirst rest with
    | some ij =>
      rw [hr] at h
      simp only [Option.some.injEq, Prod.mk.injEq] at h
      obtain ⟨hi, hj⟩ := h
      obtain ⟨r, c, h1, h2, h3⟩ := ih ij.1 ij.2 (by rw [hr])
      exact ⟨r, c, by rw [← hi]; simpa using h1, by rw [← hj]; exact h2, h3⟩
    | none =>
      rw [hr] at h
      cases hf : round.findIdx? fun score => score.val.isNone with
      | none => rw [hf] at h; simp at h
      | some j2 =>
        rw [hf] at h
        simp only [Option.map_some', Option.some.injEq, Prod.mk.injEq] at h
        obtain ⟨hi, hj⟩ := h
        subst hi
        subst hj
        obtain ⟨x, hx, hpx⟩ := findIdx?_some_spec _ round j2 hf
        exact ⟨round, x, by simp, hx, by simpa using hpx⟩

/-- A two-player state whose grid has empty cells in two different rounds:
the newest round (storage index 0) misses both cells, the oldest (index 1)
misses its second cell. -/
def exSearch : State :=
  { State.new with
    players := ["a", "b"]
    is_in_progress := true
    scores :=
      [[{ val := none, is_editing := false }, { val := none, is_editing := false }],
       [{ val := some 1, is_editing := false }, { val := none, is_editing := false }]] }

/-- The grid of `exSearch` after `enterScore(0, 1, 1)` writes cell `(0, 1)`. -/
def exSearchAfter : List (List Score) :=
  [[{ val := none, is_editing := false }, { val := some 1, is_editing := false }],
   [{ val := some 1, is_editing := false }, { val := none, is_editing := false }]]

/-- C1 counterexample: after `enterScore(0, 1, 1)` on `exSearch`, the
most-recent-round-first search picks cell `(0, 0)` (round at storage index
`0` is the most recent), but the implementation focuses cell `(1, 1)`: it
searches `iter_mut().rev()`, i.e. the oldest stored round first. -/
theorem C1_counterexample :
    setCell exSearch.scores 0 1 (fun _ => { val := some 1, is_editing := false }) =
      some exSearchAfter ∧
    searchMostRecentFirst exSearchAfter = some (0, 0) ∧
    step exSearch (AppMsg.ScoreEnter 0 1 1) = some
      { exSearch with
        scores :=
          [[{ val := none, is_editing := false }, { val := some 1, is_editing := false }],
           [{ val := some 1, is_editing := false }, { val := none, is_editing := true }]] } :=
  ⟨by decide, by decide, by decide⟩

/-- C1 (amended): after `enterScore` writes the target cell, when the grid
still contains an empty cell the implementation focuses the first empty cell
in reverse **storage** order, i.e. the **oldest** round first (rounds are
stored most-recent-first and `get_next_empty` iterates `rev()`), within a
round in player order: `get_next_empty` coincides with the oldest-round-first
search, and `update` sets `is_editing` on exactly that cell. -/
theorem C1_focus_oldest_first (s : State) (r p : Nat) (v : Int)
    (scores1 : List (List Score))
    (hset : setCell s.scores r p
      (fun _ => { val := some v, is_editing := false }) = some scores1)
    (hempty : ∃ round ∈ scores1, ∃ c ∈ round, c.val = none) :
    (searchOldestFirst scores1).isSome = true ∧
    get_next_empty scores1 = searchOldestFirst scores1 ∧
    step s (AppMsg.ScoreEnter r p v) =
      ((searchOldestFirst scores1).bind fun ij =>
        (setCell scores1 ij.1 ij.2 fun sc => { sc with is_editing := true }).map
          fun scores2 => { s with scores := scores2 }) ∧
    (step s (AppMsg.ScoreEnter r p v)).isSome = true := by
  have hsome := searchOldestFirst_isSome scores1 hempty
  have heq := get_next_empty_eq_oldest scores1
  have hstep : step s (AppMsg.ScoreEnter r p v) =
      ((searchOldestFirst scores1).bind fun ij =>
        (setCell scores1 ij.1 ij.2 fun sc => { sc with is_editing := true }).map
          fun scores2 => { s with scores := scores2 }) := by
    simp only [step]
    rw [hset]
    dsimp only
    rw [heq]
    cases hso : searchOldestFirst scores1 with
    | none => rw [hso] at hsome; simp at hsome
    | some ij => rfl
  refine ⟨hsome, heq, hstep, ?_⟩
  rw [hstep]
  cases hso : searchOldestFirst scores1 with
  | none => rw [hso] at hsome; simp at hsome
  | some ij =>
    obtain ⟨round, c, h1, h2, h3⟩ := searchOldestFirst_spec scores1 ij.1 ij.2 (by
      rw [hso])
    simp only [Option.some_bind]
    simp [setCell, h1, h2]

/-- C1 witness: the amended search applied to the concrete `exSearch`
session. -/
theorem C1_witness :
    (searchOldestFirst exSearchAfter).isSome = true ∧
    get_next_empty exSearchAfter = searchOldestFirst exSearchAfter ∧
    step exSearch (AppMsg.ScoreEnter 0 1 1) =
      ((searchOldestFirst exSearchAfter).bind fun ij =>
        (setCell exSearchAfter ij.1 ij.2 fun sc => { sc with is_editing := true }).map
          fun scores2 => { exSearch with scores := scores2 }) ∧
    (step exSearch (AppMsg.ScoreEnter 0 1 1)).isSome = true :=
  C1_focus_oldest_first exSearch 0 1 1 exSearchAfter (by decide) (by decide)

/-! ## C3: the focus invariant -/

/-- The operations as the UI delivers them: `ScoreEnter` only for the cell
currently marked `is_editing` (the input element is rendered only there),
`GameStart` only from Setup (the start button exists only when not in
progress); the remaining messages carry no focus-relevant precondition. -/
def okMsg (s : State) (msg : AppMsg) : Prop :=
  match msg with
  | .ScoreEnter r p _ => (cellAt s.scores r p).map Score.is_editing = some true
  | .GameStart => s.is_in_progress = false
  | _ => True

/-- Session states reachable from the fresh state through `App::update`
under the UI delivery guards. -/
inductive UIReach : State → Prop where
  | init : UIReach State.new
  | step {s s' : State} {m : AppMsg} (hr : UIReach s) (hok : okMsg s m)
      (hs : step s m = some s') : UIReach s'

lemma sum_map_set {α : Type} (f : α → Nat) :
    ∀ (l : List α) (r : Nat) (a : α) (h : r < l.length),
      ((l.set r a).map f).sum + f (l.get ⟨r, h⟩) = (l.map f).sum + f a := by
  intro l
  induction l with
  | nil => intro r a h; simp at h
  | cons x rest ih =>
    intro r a h
    cases r with
    | zero => simp [List.set_cons_zero]; omega
    | succ r' =>
      have h' : r' < rest.length := by simpa using h
      have hrec := ih r' a h'
      simp only [List.set_cons_succ, List.map_cons, List.sum_cons, List.get_cons_succ]
      omega

lemma countP_replicate_zero (p : Score → Bool) (k : Nat) (c : Score)
    (hc : p c = false) : (List.replicate k c).countP p = 0 :=
  List.countP_eq_zero.mpr fun a ha => by
    rw [List.eq_of_mem_replicate ha, hc]
    simp

lemma cellAt_some (scores : List (List Score)) (r p : Nat) (c : Score)
    (h : cellAt scores r p = some c) :
    ∃ round, scores[r]? = some round ∧ round[p]? = some c := by
  cases h1 : scores[r]? with
  | none => rw [cellAt, h1] at h; exact absurd h (by simp)
  | some round => rw [cellAt, h1] at h; exact ⟨round, rfl, h⟩

lemma setCell_eq (scores : List (List Score)) (r p : Nat) (f : Score → Score)
    (round : List Score) (c : Score)
    (h1 : scores[r]? = some round) (h2 : round[p]? = some c) :
    setCell scores r p f = some (scores.set r (round.set p (f c))) := by
  unfold setCell
  rw [h1]
  dsimp only
  rw [h2]

lemma next_round_effects (s s' : State) (h : s.next_round = some s') :
    editingCount s'.scores = editingCount s.scores + 1 ∧
    s'.is_in_progress = s.is_in_progress := by
  rw [State.next_round] at h
  cases hn : s.players.length with
  | zero => rw [hn] at h; simp at h
  | succ k =>
    rw [hn] at h
    simp only [List.replicate_succ] at h
    simp only [Option.some.injEq] at h
    subst h
    refine ⟨?_, rfl⟩
    simp only [editingCount, List.map_cons, List.sum_cons, List.countP_cons,
      countP_replicate_zero (fun sc => sc.is_editing) k
        { val := none, is_editing := false } rfl]
    simp [Nat.add_comm]

lemma clear_count (scores : List (List Score)) (r p : Nat) (round : List Score)
    (c : Score) (h1 : scores[r]? = some round) (h2 : round[p]? = some c)
    (hedit : c.is_editing = true) (v : Int) :
    editingCount (scores.set r (round.set p { val := some v, is_editing := false })) + 1 =
      editingCount scores := by
  obtain ⟨hr, hrr⟩ := List.getElem?_eq_some_iff.mp h1
  obtain ⟨hp, hpp⟩ := List.getElem?_eq_some_iff.mp h2
  have hset := sum_map_set (fun round => round.countP fun sc => sc.is_editing)
    scores r (round.set p { val := some v, is_editing := false }) hr
  have hget : scores.get ⟨r, hr⟩ = round := by
    rw [List.get_eq_getElem]; exact hrr
  rw [hget] at hset
  have hcount := List.countP_set (fun sc => sc.is_editing) round p
    { val := some v, is_editing := false } hp
  rw [hpp, hedit] at hcount
  norm_num at hcount
  have hpos : 0 < round.countP fun sc => sc.is_editing :=
    List.countP_pos.mpr ⟨c, List.getElem?_mem h2, hedit⟩
  simp only [editingCount] at *
  omega

lemma set_true_count (scores : List (List Score)) (i j : Nat) (round : List Score)
    (c : Score) (h1 : scores[i]? = some round) (h2 : round[j]? = some c)
    (hz : editingCount scores = 0) :
    editingCount (scores.set i (round.set j { c with is_editing := true })) = 1 := by
  obtain ⟨hi, hii⟩ := List.getElem?_eq_some_iff.mp h1
  obtain ⟨hj, hjj⟩ := List.getElem?_eq_some_iff.mp h2
  have hset := sum_map_set (fun round => round.countP fun sc => sc.is_editing)
    scores i (round.set j { c with is_editing := true }) hi
  have hget : scores.get ⟨i, hi⟩ = round := by
    rw [List.get_eq_getElem]; exact hii
  rw [hget] at hset
  have hrz : (round.countP fun sc => sc.is_editing) = 0 := by
    have hmem : (round.countP fun sc => sc.is_editing) ∈
        scores.map fun round => round.countP fun sc => sc.is_editing :=
      List.mem_map_of_mem _ (List.getElem?_mem h1)
    exact List.sum_eq_zero_iff.mp hz _ hmem
  have hcount := List.countP_set (fun sc => sc.is_editing) round j
    { c with is_editing := true } hj
  rw [hjj] at hcount
  have hcf : c.is_editing = false := by
    have := List.countP_eq_zero.mp hrz c (List.getElem?_mem h2)
    simpa using this
  rw [hcf] at hcount
  norm_num at hcount
  simp only [editingCount] at *
  omega

lemma countP_enumFrom_zero {α : Type} (pe : Nat) :
    ∀ (k : Nat) (l : List α), pe < k →
      ((List.enumFrom k l).countP fun pc => decide (pc.1 = pe)) = 0 := by
  intro k l
  induction l generalizing k with
  | nil => intro _; simp
  | cons x rest ih =>
    intro hk
    rw [List.enumFrom_cons, List.countP_cons]
    have hne : ¬ ((k, x).1 = pe) := by simp; omega
    simp [hne, ih (k + 1) (by omega)]

lemma countP_enumFrom_le_one {α : Type} (pe : Nat) :
    ∀ (k : Nat) (l : List α),
      ((List.enumFrom k l).countP fun pc => decide (pc.1 = pe)) ≤ 1 := by
  intro k l
  induction l generalizing k with
  | nil => simp
  | cons x rest ih =>
    rw [List.enumFrom_cons, List.countP_cons]
    by_cases hk : k = pe
    · rw [countP_enumFrom_zero pe (k + 1) rest (by omega)]
      simp [hk]
    · have hne : ¬ ((k, x).1 = pe) := by simpa using hk
      simpa [hne] using ih (k + 1)

lemma scoreEdit_round_count (re pe ri : Nat) (round : List Score) :
    ((round.enum.map fun pc =>
        { pc.2 with is_editing := decide (ri = re ∧ pc.1 = pe) }).countP
      fun sc => sc.is_editing) =
      if ri = re then (round.enum.countP fun pc => decide (pc.1 = pe)) else 0 := by
  rw [List.countP_map]
  by_cases h : ri = re
  · subst h
    rw [if_pos rfl]
    apply List.countP_congr
    intro pc _
    simp [Function.comp]
  · rw [if_neg h]
    apply List.countP_eq_zero.mpr
    intro pc _
    simp [Function.comp, h]

lemma sum_enumFrom_ite_le_one {α : Type} (re : Nat) (g : Nat × α → Nat)
    (hg : ∀ p, g p ≤ 1) :
    ∀ (k : Nat) (l : List α),
      (((List.enumFrom k l).map fun p => if p.1 = re then g p else 0).sum ≤ 1) ∧
      (re < k → ((List.enumFrom k l).map fun p => if p.1 = re then g p else 0).sum = 0) := by
  intro k l
  induction l generalizing k with
  | nil => simp
  | cons x rest ih =>
    rw [List.enumFrom_cons, List.map_cons, List.sum_cons]
    obtain ⟨ih1, ih2⟩ := ih (k + 1)
    constructor
    · by_cases hk : k = re
      · subst hk
        rw [if_pos rfl, ih2 (by omega)]
        simpa using hg (k, x)
      · rw [if_neg (by simpa using hk)]
        simpa using ih1
    · intro hre
      rw [if_neg (by simp; omega), ih2 (by omega)]

lemma scoreEdit_count_le (scores : List (List Score)) (re pe : Nat) :
    editingCount (scoreEditScores scores re pe) ≤ 1 := by
  unfold editingCount scoreEditScores
  rw [List.map_map]
  have hcong : scores.enum.map
      ((fun round => round.countP fun sc => sc.is_editing) ∘ fun rp =>
        rp.2.enum.map fun pc =>
          { pc.2 with is_editing := decide (rp.1 = re ∧ pc.1 = pe) }) =
      scores.enum.map fun rp =>
        if rp.1 = re then (rp.2.enum.countP fun pc => decide (pc.1 = pe)) else 0 := by
    apply List.map_congr_left
    intro rp _
    exact scoreEdit_round_count re pe rp.1 rp.2
  rw [hcong]
  have := (sum_enumFrom_ite_le_one re
    (fun rp => rp.2.enum.countP fun pc => decide (pc.1 = pe))
    (fun rp => countP_enumFrom_le_one pe 0 rp.2) 0 scores).1
  simpa [List.enum] using this

lemma scoreEnter_post (s : State) (r p : Nat) (v : Int) (s' : State)
    (hcnt : editingCount s.scores ≤ 1)
    (hok : okMsg s (AppMsg.ScoreEnter r p v))
    (hs : step s (AppMsg.ScoreEnter r p v) = some s') :
    (editingCount s'.scores = 1 ∨
      (s'.is_game_over = some true ∧ editingCount s'.scores = 0)) ∧
    s'.is_in_progress = s.is_in_progress := by
  have hok' : (cellAt s.scores r p).map Score.is_editing = some true := hok
  cases hcell : cellAt s.scores r p with
  | none => rw [hcell] at hok'; simp at hok'
  | some c =>
    rw [hcell] at hok'
    simp only [Option.map_some', Option.some.injEq] at hok'
    obtain ⟨round, h1, h2⟩ := cellAt_some s.scores r p c hcell
    have hset := setCell_eq s.scores r p
      (fun _ => { val := some v, is_editing := false }) round c h1 h2
    simp only [step] at hs
    rw [hset] at hs
    dsimp only at hs
    have hz : editingCount
        (s.scores.set r (round.set p { val := some v, is_editing := false })) = 0 := by
      have := clear_count s.scores r p round c h1 h2 hok' v
      omega
    cases hg : get_next_empty
        (s.scores.set r (round.set p { val := some v, is_editing := false })) with
    | some ij =>
      rw [hg] at hs
      dsimp only at hs
      rw [get_next_empty_eq_oldest] at hg
      obtain ⟨round2, c2, g1, g2, g3⟩ := searchOldestFirst_spec _ ij.1 ij.2 hg
      rw [setCell_eq _ ij.1 ij.2 _ round2 c2 g1 g2] at hs
      simp only [Option.map_some', Option.some.injEq] at hs
      subst hs
      exact ⟨Or.inl (set_true_count _ ij.1 ij.2 round2 c2 g1 g2 hz), rfl⟩
    | none =>
      rw [hg] at hs
      dsimp only at hs
      split at hs
      · exact absurd hs (by simp)
      · rename_i hgo
        simp only [Option.some.injEq] at hs
        subst hs
        exact ⟨Or.inr ⟨hgo, hz⟩, rfl⟩
      · rename_i hgo
        obtain ⟨hc, hp⟩ := next_round_effects _ _ hs
        refine ⟨Or.inl ?_, by rw [hp]⟩
        rw [hc]
        simpa using hz

lemma UIReach_inv (s : State) (hr : UIReach s) :
    editingCount s.scores ≤ 1 ∧ (s.is_in_progress = false → s.scores = []) := by
  induction hr with
  | init => exact ⟨by simp [State.new, editingCount], fun _ => rfl⟩
  | @step s s' m hr hok hs ih =>
    obtain ⟨ih1, ih2⟩ := ih
    cases m with
    | ScoreEnter r p v =>
      obtain ⟨hpost, hflag⟩ := scoreEnter_post s r p v s' ih1 hok hs
      constructor
      · rcases hpost with h | ⟨_, h⟩ <;> omega
      · intro hfalse
        exfalso
        rw [hflag] at hfalse
        have hempty := ih2 hfalse
        have hok' : (cellAt s.scores r p).map Score.is_editing = some true := hok
        rw [hempty] at hok'
        simp [cellAt] at hok'
    | ScoreEdit re pe =>
      simp only [step, Option.some.injEq] at hs
      subst hs
      refine ⟨scoreEdit_count_le s.scores re pe, ?_⟩
      intro hfalse
      have hempty := ih2 hfalse
      simp [scoreEditScores, hempty]
    | GameNew =>
      simp only [step, Option.some.injEq] at hs
      subst hs
      exact ⟨by simp [State.new, editingCount], fun _ => rfl⟩
    | GameStart =>
      have hok' : s.is_in_progress = false := hok
      have hempty := ih2 hok'
      have hs' : State.next_round { s with is_in_progress := true } = some s' := hs
      obtain ⟨hc, hp⟩ := next_round_effects _ _ hs'
      constructor
      · rw [hc]
        simp [hempty, editingCount]
      · intro hfalse
        rw [hp] at hfalse
        simp at hfalse
    | PlayerAdd name =>
      simp only [step, Option.some.injEq] at hs
      subst hs
      exact ⟨ih1, ih2⟩
    | PlayerRemove idx =>
      simp only [step] at hs
      by_cases hidx : idx < s.players.length
      · rw [if_pos hidx] at hs
        simp only [Option.some.injEq] at hs
        subst hs
        exact ⟨ih1, ih2⟩
      · rw [if_neg hidx] at hs
        simp at hs

/-- C3 counterexample: a sequence of the public operations, each succeeding,
that reaches a state with two cells marked `isEditing`: three players, start
the game, click cell `(0, 2)` to edit it, then enter a score into cell
`(0, 0)` (a coordinate the API accepts although that cell is not the focused
one).  The cleared cell was not the focused one, and the cursor advance then
marks a second cell. -/
theorem C3_counterexample :
    (run State.new [AppMsg.PlayerAdd "a", AppMsg.PlayerAdd "b", AppMsg.PlayerAdd "c",
      AppMsg.GameStart, AppMsg.ScoreEdit 0 2, AppMsg.ScoreEnter 0 0 5]).map
        (fun s => editingCount s.scores) = some 2 := by
  decide

/-- C3 (amended): under the UI's own delivery discipline — `startGame` only
from Setup and `enterScore` only aimed at the currently focused cell — every
reachable state has at most one cell with `isEditing = true`, and after every
such `enterScore` exactly one cell is editing unless the game has just ended,
in which case zero are. -/
theorem C3_focus_invariant (s : State) (hr : UIReach s) (r p : Nat) (v : Int)
    (s' : State) :
    editingCount s.scores ≤ 1 ∧
    (okMsg s (AppMsg.ScoreEnter r p v) → step s (AppMsg.ScoreEnter r p v) = some s' →
      (editingCount s'.scores = 1 ∨
        (s'.is_game_over = some true ∧ editingCount s'.scores = 0))) := by
  have hinv := UIReach_inv s hr
  exact ⟨hinv.1, fun hok hs => (scoreEnter_post s r p v s' hinv.1 hok hs).1⟩

/-- The two-player state right after `startGame` from a two-player Setup. -/
def wsStart : State :=
  { State.new with
    players := ["a", "b"]
    is_in_progress := true
    scores := [[{ val := none, is_editing := true }, { val := none, is_editing := false }]] }

/-- `wsStart` after `enterScore(0, 0, 5)`. -/
def wsAfter : State :=
  { State.new with
    players := ["a", "b"]
    is_in_progress := true
    scores := [[{ val := some 5, is_editing := false }, { val := none, is_editing := true }]] }

lemma wsStart_reach : UIReach wsStart :=
  UIReach.step
    (UIReach.step
      (UIReach.step UIReach.init
        (show okMsg State.new (AppMsg.PlayerAdd "a") from trivial)
        (by decide : step State.new (AppMsg.PlayerAdd "a") =
          some { State.new with players := ["a"] }))
      (show okMsg { State.new with players := ["a"] } (AppMsg.PlayerAdd "b") from trivial)
      (by decide : step { State.new with players := ["a"] } (AppMsg.PlayerAdd "b") =
        some { State.new with players := ["a", "b"] }))
    (show okMsg { State.new with players := ["a", "b"] } AppMsg.GameStart from
      (by decide : ({ State.new with players := ["a", "b"] } : State).is_in_progress = false))
    (by decide : step { State.new with players := ["a", "b"] } AppMsg.GameStart =
      some wsStart)

/-- C3 witness: the focus invariant at the concrete reachable state
`wsStart`, and the exactly-one-editing consequence of its `enterScore`. -/
theorem C3_witness :
    editingCount wsStart.scores ≤ 1 ∧
    (editingCount wsAfter.scores = 1 ∨
      (wsAfter.is_game_over = some true ∧ editingCount wsAfter.scores = 0)) :=
  ⟨(C3_focus_invariant wsStart wsStart_reach 0 0 5 wsAfter).1,
   (C3_focus_invariant wsStart wsStart_reach 0 0 5 wsAfter).2
     (by decide : (cellAt wsStart.scores 0 0).map Score.is_editing = some true)
     (by decide : step wsStart (AppMsg.ScoreEnter 0 0 5) = some wsAfter)⟩
